import Mathlib

/-!
Verification of the RFI feature-extraction engine of the rfi-app repository
(`src/utils/rfi_analysis.py`, with the batch loop of `src/app.py`).

The per-user activity sequence is a list of naturals (0 = inactive day,
1 = active day); the last entry is the reference day and the prefix is the
observation window, exactly as `get_rfi_matrix` reads `df.row(user_id)`.
-/

namespace RfiApp

/-- The episode scan of `get_rfi_matrix` (src/utils/rfi_analysis.py:15-25):
walk the window left to right keeping the currently open run of zeros as
`some (start, duration)`, closing it when a nonzero day or the end of the
window is reached.  Episodes are `(start, duration)` pairs of a maximal run
of zeros. -/
def seg : List ℕ → ℕ → Option (ℕ × ℕ) → List (ℕ × ℕ)
  | [], _, none => []
  | [], _, some e => [e]
  | x :: xs, i, none =>
      if x = 0 then seg xs (i + 1) (some (i, 1)) else seg xs (i + 1) none
  | x :: xs, i, some e =>
      if x = 0 then seg xs (i + 1) (some (e.1, e.2 + 1)) else e :: seg xs (i + 1) none

/-- All inactivity episodes of a window, in order of start index. -/
def findEpisodes (w : List ℕ) : List (ℕ × ℕ) := seg w 0 none

/-- One row of the RFI table before the Relevance column is added:
inactivity duration `I`, frequency `F`, recency `R`
(src/utils/rfi_analysis.py:51-58). -/
structure RfiRow where
  I : ℕ
  F : ℕ
  R : ℤ
deriving DecidableEq, Repr

/-- Recency of a non-ongoing episode `e` in window `w` with reference day
`ref`: `len(observation_days) - (start + duration - 1) - (1 if reference_day == 0 else 0)`
(src/utils/rfi_analysis.py:41-42), in exact integer arithmetic. -/
def recencyIn (w : List ℕ) (ref : ℕ) (e : ℕ × ℕ) : ℤ :=
  (w.length : ℤ) - ((e.1 : ℤ) + (e.2 : ℤ) - 1) - (if ref = 0 then 1 else 0)

/-- One `rfi_data` dictionary update (src/utils/rfi_analysis.py:44-48): the
association list is keyed by duration in insertion order; an existing key
gets `F + 1` and `min R r`, a new key is appended with `F = 1`. -/
def insertEp : List (ℕ × ℕ × ℤ) → ℕ → ℤ → List (ℕ × ℕ × ℤ)
  | [], d, r => [(d, 1, r)]
  | (d', v) :: rest, d, r =>
      if d' = d then (d', v.1 + 1, min v.2 r) :: rest else (d', v) :: insertEp rest d r

/-- The `rfi_data` dictionary built from the non-ongoing episodes
(src/utils/rfi_analysis.py:40-48), as an insertion-ordered association list
from duration to `(F, R)`. -/
def buildGroups (w : List ℕ) (ref : ℕ) (eps : List (ℕ × ℕ)) : List (ℕ × ℕ × ℤ) :=
  eps.foldl (fun acc e => insertEp acc e.2 (recencyIn w ref e)) []

/-- Reclassification of the trailing episode as ongoing
(src/utils/rfi_analysis.py:29-35): if episodes exist, the reference day is
inactive and the last episode ends on the last index of the (possibly
extended) window, that episode is removed from the list and returned
separately. -/
def splitOngoing (ref : ℕ) (wlen : ℕ) (all : List (ℕ × ℕ)) :
    List (ℕ × ℕ) × Option (ℕ × ℕ) :=
  match all.getLast? with
  | none => (all, none)
  | some last =>
      if ref = 0 ∧ (last.1 : ℤ) + (last.2 : ℤ) - 1 = (wlen : ℤ) - 1 then
        (all.dropLast, some last)
      else (all, none)

/-- Row order used by `rfi_df.sort('R')`: ascending recency. -/
def rowLe (a b : RfiRow) : Prop := a.R ≤ b.R

instance : DecidableRel rowLe := fun a b => inferInstanceAs (Decidable (a.R ≤ b.R))

instance : IsTotal RfiRow rowLe := ⟨fun a b => le_total a.R b.R⟩

instance : IsTrans RfiRow rowLe := ⟨fun _ _ _ h h' => le_trans h h'⟩

/-- The discrete part of `get_rfi_matrix` for a user whose activity row
splits into observation window `obs` and reference day `ref`: the possibly
extended window, the episode list, the ongoing episode, the grouped rows,
the appended ongoing row and the table sorted by ascending `R`
(src/utils/rfi_analysis.py:5-60 and 179). -/
structure PipeOut where
  window : List ℕ
  epsAll : List (ℕ × ℕ)
  eps : List (ℕ × ℕ)
  ongoing : Option (ℕ × ℕ)
  baseRows : List RfiRow
  rows : List RfiRow
  sorted : List RfiRow

/-- Build the discrete RFI pipeline output from observation days and the
reference day. -/
def pipe (obs : List ℕ) (ref : ℕ) : PipeOut :=
  let w := if ref = 0 then obs ++ [0] else obs
  let all := findEpisodes w
  let p := splitOngoing ref w.length all
  let base := (buildGroups w ref p.1).map (fun g => ⟨g.1, g.2.1, g.2.2⟩)
  let rws := base ++ (match p.2 with | some e => [⟨e.2, 1, 0⟩] | none => [])
  { window := w, epsAll := all, eps := p.1, ongoing := p.2, baseRows := base,
    rows := rws, sorted := List.insertionSort rowLe rws }

example : (pipe [0, 0, 1, 0] 1).rows = [⟨2, 1, 3⟩, ⟨1, 1, 1⟩] := by decide

example : (pipe [0, 0, 1, 0] 1).sorted = [⟨1, 1, 1⟩, ⟨2, 1, 3⟩] := by decide

example : (pipe [1, 0] 0).rows = [⟨2, 1, 0⟩] := by decide

example : (pipe [1, 0] 0).eps = [] ∧ (pipe [1, 0] 0).ongoing = some (1, 2) := by decide

example : (pipe [0, 1, 0, 1, 0, 0, 1] 1).sorted = [⟨2, 1, 2⟩, ⟨1, 2, 5⟩] := by decide

/-- Two-decimal rounding used for the Relevance column
(`.round(2)` at src/utils/rfi_analysis.py:103).  All rounded quantities are
nonnegative, where rounding the scaled value to the nearest integer agrees
with the float rounding of the source. -/
noncomputable def round2 (x : ℝ) : ℝ := ((round (x * 100) : ℤ) : ℝ) / 100

/-- The Relevance of one RFI row (src/utils/rfi_analysis.py:95-104):
`round(I * F * exp(-k * sqrt(R + 1)) * (R < 90) * (R != 0), 2)` with
`k = 1/30` and the comparisons cast to integer indicators. -/
noncomputable def relevance (row : RfiRow) : ℝ :=
  round2 ((row.I : ℝ) * (row.F : ℝ) *
    Real.exp (-(1 / 30 : ℝ) * Real.sqrt ((row.R : ℝ) + 1)) *
    (if row.R < 90 then 1 else 0) * (if row.R ≠ 0 then 1 else 0))

/-- The eleven features returned by `get_rfi_matrix`
(src/utils/rfi_analysis.py:64-83 and 85-177), in source order and with the
source field names. -/
structure Features where
  activity_ratio : ℚ
  num_episodes : ℕ
  avg_recency : ℚ
  min_recency : ℤ
  avg_relevance : ℝ
  max_relevance : ℝ
  activity_periodicity_score : ℚ
  inactivity_linearity : ℚ
  activity_variability : ℝ
  inactivity_growth_rate : ℚ
  recent_activity_density : ℚ

/-- The autocorrelation of the window with itself at non-negative lag `k`:
entry `n - 1 + k` of `np.correlate(w, w, mode='full')`, i.e. the half kept
by `autocorr[len(autocorr)//2:]` (src/utils/rfi_analysis.py:112-114). -/
def ac (w : List ℕ) (k : ℕ) : ℕ :=
  ∑ j in Finset.range (w.length - k), w.getD j 0 * w.getD (j + k) 0

/-- `np.max` over the non-negative-lag half of the autocorrelation
(src/utils/rfi_analysis.py:116). -/
def acMax (w : List ℕ) : ℕ := ((List.range w.length).map (ac w)).foldr max 0

/-- Squared correlation coefficient of `stats.linregress(xs, ys)`
(src/utils/rfi_analysis.py:135-136), in exact arithmetic:
`r² = (n·Σxy - Σx·Σy)² / ((n·Σx² - (Σx)²)·(n·Σy² - (Σy)²))`.  A zero
denominator yields `0`, matching scipy's `r = 0` convention for constant
data (a constant predictor list is unreachable here, see the recency
lemmas). -/
def rsq (xs ys : List ℤ) : ℚ :=
  let n : ℚ := xs.length
  let sx : ℚ := (xs.map (fun x => (x : ℚ))).sum
  let sy : ℚ := (ys.map (fun y => (y : ℚ))).sum
  let sxx : ℚ := (xs.map (fun x => ((x : ℚ)) ^ 2)).sum
  let syy : ℚ := (ys.map (fun y => ((y : ℚ)) ^ 2)).sum
  let sxy : ℚ := (List.zipWith (fun a b => ((a : ℚ)) * ((b : ℚ))) xs ys).sum
  (n * sxy - sx * sy) ^ 2 / ((n * sxx - sx ^ 2) * (n * syy - sy ^ 2))

/-- Population variance of a list of naturals, `(n·Σx² - (Σx)²) / n²`:
the square of `np.std` with the default `ddof = 0`
(src/utils/rfi_analysis.py:145). -/
def varQ (l : List ℕ) : ℚ :=
  ((l.length : ℚ) * (l.map (fun x => ((x : ℚ)) ^ 2)).sum - ((l.map (fun x => (x : ℚ))).sum) ^ 2) /
    ((l.length : ℚ)) ^ 2

/-- Minimum of a list of integers, `0` on the empty list
(`rfi_df['R'].min()`, src/utils/rfi_analysis.py:93). -/
def minListZ : List ℤ → ℤ
  | [] => 0
  | x :: xs => xs.foldl min x

/-- Maximum of a list of reals, `0` on the empty list
(`rfi_df['Relevance'].max()`, src/utils/rfi_analysis.py:107). -/
noncomputable def maxListR : List ℝ → ℝ
  | [] => 0
  | x :: xs => xs.foldl max x

/-- The feature tuple of `get_rfi_matrix`.  When the RFI table is empty the
source returns the literal tuple of src/utils/rfi_analysis.py:70-82 (only
`activity_ratio` computed); otherwise each feature follows
src/utils/rfi_analysis.py:85-177. -/
noncomputable def featuresOf (obs : List ℕ) (ref : ℕ) : Features :=
  let p := pipe obs ref
  let w := p.window
  if p.rows = [] then
    { activity_ratio := if w.length = 0 then 0 else (w.sum : ℚ) / (w.length : ℚ)
      num_episodes := 0
      avg_recency := 0
      min_recency := 0
      avg_relevance := 0
      max_relevance := 0
      activity_periodicity_score := 0
      inactivity_linearity := 0
      activity_variability := 0
      inactivity_growth_rate := 0
      recent_activity_density := 0 }
  else
    let numEp := (p.rows.map RfiRow.F).sum
    { activity_ratio := if w.length = 0 then 0 else (w.sum : ℚ) / (w.length : ℚ)
      num_episodes := numEp
      avg_recency :=
        if numEp = 0 then 0 else ((p.rows.map (fun r => (r.R : ℚ))).sum) / (p.rows.length : ℚ)
      min_recency := if numEp = 0 then 0 else minListZ (p.rows.map RfiRow.R)
      avg_relevance :=
        if numEp = 0 then 0 else ((p.rows.map relevance).sum) / (p.rows.length : ℝ)
      max_relevance := if numEp = 0 then 0 else maxListR (p.rows.map relevance)
      activity_periodicity_score :=
        if 7 < w.length then
          (∑ k in Finset.Ico 1 (min 30 w.length), (ac w k : ℚ) / (acMax w : ℚ)) /
            ((min 29 (w.length - 1) : ℕ) : ℚ)
        else 0
      inactivity_linearity :=
        if 1 < p.eps.length then
          rsq (p.eps.map (recencyIn w ref)) (p.eps.map (fun e => (e.2 : ℤ)))
        else 0
      activity_variability :=
        let idx := (List.range w.length).filter (fun i => w.getD i 0 == 1)
        if 1 < idx.length then
          Real.sqrt ((varQ (List.zipWith (fun a b => b - a) idx idx.tail) : ℚ) : ℝ)
        else 0
      inactivity_growth_rate :=
        if 1 < p.eps.length then
          let ds := p.eps.map (fun e => e.2)
          let rates := List.zipWith
            (fun prev cur : ℕ => if 0 < prev then (cur : ℚ) / (prev : ℚ) else 1) ds ds.tail
          rates.sum / (rates.length : ℚ)
        else 1
      recent_activity_density :=
        let rw := min 30 w.length
        (((w.drop (w.length - rw)).sum : ℚ)) / (rw : ℚ) }

/-- Split a user's activity row into observation days and reference day:
`reference_day = activity[-1]`, `observation_days = activity[:-1]`
(src/utils/rfi_analysis.py:7-9).  A zero-length row makes `activity[-1]`
raise `IndexError`, modelled as `none`. -/
def splitAct (act : List ℕ) : Option (List ℕ × ℕ) :=
  match act.getLast? with
  | none => none
  | some r => some (act.dropLast, r)

/-- `get_rfi_matrix` on one activity row: the RFI table sorted by ascending
`R` (Relevance is the `relevance` function of each row) and the feature
tuple (src/utils/rfi_analysis.py:5-179). -/
noncomputable def get_rfi_matrix (act : List ℕ) : Option (List RfiRow × Features) :=
  (splitAct act).map (fun o => ((pipe o.1 o.2).sorted, featuresOf o.1 o.2))

open Classical in
/-- Python's `round(x, 0)`: round half to even, as `float.__round__` does. -/
noncomputable def roundHalfEven (x : ℝ) : ℤ :=
  if Int.fract x = 1 / 2 then (if Even ⌊x⌋ then ⌊x⌋ else ⌊x⌋ + 1) else round x

open Classical in
/-- `calculate_dormancy` on the observation window and reference day of one
user (src/utils/rfi_analysis.py:182-191): the Relevance-weighted average of
the `I` column rounded to the nearest integer when the table is non-empty
and the Relevance sum is positive, else `0`. -/
noncomputable def dormancyCore (obs : List ℕ) (ref : ℕ) : ℤ :=
  let t := (pipe obs ref).sorted
  if t ≠ [] ∧ 0 < (t.map relevance).sum then
    roundHalfEven (((t.map (fun r => (r.I : ℝ) * relevance r)).sum) / (t.map relevance).sum)
  else 0

/-- `calculate_dormancy` on a full activity row; `none` models the
`IndexError` of a zero-length row. -/
noncomputable def calculate_dormancy (act : List ℕ) : Option ℤ :=
  (splitAct act).map (fun o => dormancyCore o.1 o.2)

/-- One result row of the batch loop of `render_process_all_users`
(src/app.py:107-121): user id, `features[0]`, `features[7]` and the
dormancy value, or the zero-filled default of the `except` branch. -/
structure BatchRow where
  userId : ℕ
  activity_ratio : ℚ
  inactivity_linearity : ℚ
  dormancy : ℤ
deriving DecidableEq, Repr

/-- The body of the per-user `try`/`except` of src/app.py:99-121: `compute`
abstracts the `try` block (RFI features and dormancy of one user); a
success appends the computed row, any failure appends the zero-filled
default row and the loop continues. -/
def renderRow (compute : ℕ → Except String (ℚ × ℚ × ℤ)) (uid : ℕ) : BatchRow :=
  match compute uid with
  | Except.ok v => ⟨uid, v.1, v.2.1, v.2.2⟩
  | Except.error _ => ⟨uid, 0, 0, 0⟩

/-- The batch loop of `render_process_all_users` (src/app.py:89-132): it
iterates user ids `0 .. totalUsers - 1` in order and returns the result
rows together with the data shown by the completion banner
(`st.success` at src/app.py:132 reports only the user count; elapsed
wall-clock time is not modelled). -/
def render_process_all_users (compute : ℕ → Except String (ℚ × ℚ × ℤ))
    (totalUsers : ℕ) : List BatchRow × ℕ :=
  ((List.range totalUsers).map (renderRow compute), totalUsers)

/-- `user_ids` of `process_all_users` (src/utils/rfi_analysis.py:223): the
values of the first column of the matrix, one per row. -/
def batchUserIds (df : List (List ℕ)) : List ℕ := df.map (fun r => r.headD 0)

/-- The per-user loop of `process_all_users`
(src/utils/rfi_analysis.py:225-235).  Its first statement calls the
two-parameter `calculate_dormancy` with three arguments
(src/utils/rfi_analysis.py:227), so Python raises `TypeError` on the first
user; with no users the loop is skipped and the assembly of the two empty
result tables is modelled as a plain success. -/
def processLoop : List ℕ → Except String Unit
  | [] => Except.ok ()
  | _ :: _ =>
      Except.error "TypeError: calculate_dormancy takes 2 positional arguments but 3 were given"

/-- `process_all_users` (src/utils/rfi_analysis.py:193-239): derives user
ids from the first column's cell values and runs the per-user loop, which
raises `TypeError` for every non-empty user list. -/
def process_all_users (df : List (List ℕ)) : Except String Unit :=
  processLoop (batchUserIds df)

/-! Lemmas about the episode scan. -/

/-- Invariant of the scan state: an open run `(s, d)` at position `i` covers
exactly the indices `s .. i - 1`. -/
def segInv : Option (ℕ × ℕ) → ℕ → Prop
  | none, _ => True
  | some e, i => e.1 + e.2 = i ∧ 1 ≤ e.2

lemma seg_nil_none (i : ℕ) : seg [] i none = [] := rfl

lemma seg_nil_some (i : ℕ) (e : ℕ × ℕ) : seg [] i (some e) = [e] := rfl

lemma seg_cons_none (x : ℕ) (xs : List ℕ) (i : ℕ) :
    seg (x :: xs) i none =
      if x = 0 then seg xs (i + 1) (some (i, 1)) else seg xs (i + 1) none := rfl

lemma seg_cons_some (x : ℕ) (xs : List ℕ) (i : ℕ) (e : ℕ × ℕ) :
    seg (x :: xs) i (some e) =
      if x = 0 then seg xs (i + 1) (some (e.1, e.2 + 1))
      else e :: seg xs (i + 1) none := rfl

lemma seg_mem_bounds (l : List ℕ) : ∀ (i : ℕ) (st : Option (ℕ × ℕ)), segInv st i →
    ∀ e ∈ seg l i st, 1 ≤ e.2 ∧ e.1 + e.2 ≤ i + l.length := by
  induction l with
  | nil =>
    intro i st hinv e he
    cases st with
    | none => simp [seg_nil_none] at he
    | some e0 =>
      rw [seg_nil_some, List.mem_singleton] at he
      subst he
      exact ⟨hinv.2, by have := hinv.1; omega⟩
  | cons x xs ih =>
    intro i st hinv e he
    cases st with
    | none =>
      rw [seg_cons_none] at he
      by_cases hx : x = 0
      · rw [if_pos hx] at he
        have h := ih (i + 1) (some (i, 1)) ⟨rfl, le_refl 1⟩ e he
        simp only [List.length_cons]
        omega
      · rw [if_neg hx] at he
        have h := ih (i + 1) none trivial e he
        simp only [List.length_cons]
        omega
    | some e0 =>
      rw [seg_cons_some] at he
      by_cases hx : x = 0
      · rw [if_pos hx] at he
        have h := ih (i + 1) (some (e0.1, e0.2 + 1))
          ⟨by have := hinv.1; omega, by omega⟩ e he
        simp only [List.length_cons]
        omega
      · rw [if_neg hx] at he
        rcases List.mem_cons.mp he with rfl | he'
        · refine ⟨hinv.2, ?_⟩
          have := hinv.1
          simp only [List.length_cons]
          omega
        · have h := ih (i + 1) none trivial e he'
          simp only [List.length_cons]
          omega

lemma seg_mem_start (l : List ℕ) : ∀ (i : ℕ) (st : Option (ℕ × ℕ)), segInv st i →
    ∀ e ∈ seg l i st,
      (st = none → i ≤ e.1) ∧ (∀ e0, st = some e0 → e0.1 ≤ e.1) := by
  induction l with
  | nil =>
    intro i st hinv e he
    cases st with
    | none => simp [seg_nil_none] at he
    | some e0 =>
      rw [seg_nil_some, List.mem_singleton] at he
      subst he
      exact ⟨fun h => Option.noConfusion h,
        fun e1 h => by cases h; exact le_refl _⟩
  | cons x xs ih =>
    intro i st hinv e he
    cases st with
    | none =>
      refine ⟨fun _ => ?_, fun e0 h0 => Option.noConfusion h0⟩
      rw [seg_cons_none] at he
      by_cases hx : x = 0
      · rw [if_pos hx] at he
        exact (ih (i + 1) (some (i, 1)) ⟨rfl, le_refl 1⟩ e he).2 (i, 1) rfl
      · rw [if_neg hx] at he
        have h := (ih (i + 1) none trivial e he).1 rfl
        omega
    | some e0 =>
      refine ⟨fun h0 => Option.noConfusion h0, fun e1 h1 => ?_⟩
      cases h1
      rw [seg_cons_some] at he
      by_cases hx : x = 0
      · rw [if_pos hx] at he
        exact (ih (i + 1) (some (e0.1, e0.2 + 1))
          ⟨by have := hinv.1; omega, by omega⟩ e he).2 (e0.1, e0.2 + 1) rfl
      · rw [if_neg hx] at he
        rcases List.mem_cons.mp he with rfl | he'
        · exact le_refl _
        · have h := (ih (i + 1) none trivial e he').1 rfl
          have := hinv.1
          omega

lemma seg_chain (l : List ℕ) : ∀ (i : ℕ) (st : Option (ℕ × ℕ)), segInv st i →
    List.Chain' (fun a b : ℕ × ℕ => a.1 + a.2 < b.1) (seg l i st) := by
  induction l with
  | nil =>
    intro i st _
    cases st with
    | none => rw [seg_nil_none]; exact List.chain'_nil
    | some e0 => rw [seg_nil_some]; exact List.chain'_singleton _
  | cons x xs ih =>
    intro i st hinv
    cases st with
    | none =>
      rw [seg_cons_none]
      by_cases hx : x = 0
      · rw [if_pos hx]
        exact ih (i + 1) (some (i, 1)) ⟨rfl, le_refl 1⟩
      · rw [if_neg hx]
        exact ih (i + 1) none trivial
    | some e0 =>
      rw [seg_cons_some]
      by_cases hx : x = 0
      · rw [if_pos hx]
        exact ih (i + 1) (some (e0.1, e0.2 + 1)) ⟨by have := hinv.1; omega, by omega⟩
      · rw [if_neg hx]
        refine List.chain'_cons'.mpr ⟨?_, ih (i + 1) none trivial⟩
        intro y hy
        have hmem := List.mem_of_mem_head? hy
        have h := (seg_mem_start xs (i + 1) none trivial y hmem).1 rfl
        have := hinv.1
        omega

lemma seg_last (l : List ℕ) : ∀ (i : ℕ) (st : Option (ℕ × ℕ)), segInv st i →
    l.getLast? = some 0 →
    ∃ e, (seg l i st).getLast? = some e ∧ e.1 + e.2 = i + l.length := by
  induction l with
  | nil => intro i st _ h; cases h
  | cons x xs ih =>
    intro i st hinv hlast
    cases xs with
    | nil =>
      simp only [List.getLast?_singleton, Option.some.injEq] at hlast
      have hx : x = 0 := hlast
      cases st with
      | none =>
        refine ⟨(i, 1), ?_, by simp⟩
        rw [seg_cons_none, if_pos hx, seg_nil_some]
        rfl
      | some e0 =>
        refine ⟨(e0.1, e0.2 + 1), ?_, by have := hinv.1; simp; omega⟩
        rw [seg_cons_some, if_pos hx, seg_nil_some]
        rfl
    | cons y ys =>
      rw [List.getLast?_cons_cons] at hlast
      cases st with
      | none =>
        rw [seg_cons_none]
        by_cases hx : x = 0
        · rw [if_pos hx]
          obtain ⟨e, he, hsum⟩ := ih (i + 1) (some (i, 1)) ⟨rfl, le_refl 1⟩ hlast
          exact ⟨e, he, by simp only [List.length_cons] at hsum ⊢; omega⟩
        · rw [if_neg hx]
          obtain ⟨e, he, hsum⟩ := ih (i + 1) none trivial hlast
          exact ⟨e, he, by simp only [List.length_cons] at hsum ⊢; omega⟩
      | some e0 =>
        rw [seg_cons_some]
        by_cases hx : x = 0
        · rw [if_pos hx]
          obtain ⟨e, he, hsum⟩ := ih (i + 1) (some (e0.1, e0.2 + 1))
            ⟨by have := hinv.1; omega, by omega⟩ hlast
          exact ⟨e, he, by simp only [List.length_cons] at hsum ⊢; omega⟩
        · rw [if_neg hx]
          obtain ⟨e, he, hsum⟩ := ih (i + 1) none trivial hlast
          refine ⟨e, ?_, by simp only [List.length_cons] at hsum ⊢; omega⟩
          cases hseg : seg (y :: ys) (i + 1) none with
          | nil =>
            rw [hseg] at he
            simp at he
          | cons z zs =>
            rw [hseg] at he
            rw [List.getLast?_cons_cons]
            exact he


/-! Lemmas about the pipeline structure. -/

lemma pipe_window (obs : List ℕ) (ref : ℕ) :
    (pipe obs ref).window = if ref = 0 then obs ++ [0] else obs := rfl

lemma pipe_epsAll (obs : List ℕ) (ref : ℕ) :
    (pipe obs ref).epsAll = findEpisodes (pipe obs ref).window := rfl

lemma pipe_epsAll_seg (obs : List ℕ) (ref : ℕ) :
    (pipe obs ref).epsAll = seg (pipe obs ref).window 0 none := rfl

lemma pipe_eps (obs : List ℕ) (ref : ℕ) :
    (pipe obs ref).eps =
      (splitOngoing ref (pipe obs ref).window.length (pipe obs ref).epsAll).1 := rfl

lemma pipe_ongoing (obs : List ℕ) (ref : ℕ) :
    (pipe obs ref).ongoing =
      (splitOngoing ref (pipe obs ref).window.length (pipe obs ref).epsAll).2 := rfl

lemma pipe_baseRows (obs : List ℕ) (ref : ℕ) :
    (pipe obs ref).baseRows =
      (buildGroups (pipe obs ref).window ref (pipe obs ref).eps).map
        (fun g => ⟨g.1, g.2.1, g.2.2⟩) := rfl

lemma pipe_rows (obs : List ℕ) (ref : ℕ) :
    (pipe obs ref).rows = (pipe obs ref).baseRows ++
      (match (pipe obs ref).ongoing with
        | some e => [⟨e.2, 1, 0⟩]
        | none => []) := rfl

lemma pipe_sorted (obs : List ℕ) (ref : ℕ) :
    (pipe obs ref).sorted = List.insertionSort rowLe (pipe obs ref).rows := rfl

lemma splitOngoing_of_ref_ne (ref : ℕ) (h : ref ≠ 0) (n : ℕ) (all : List (ℕ × ℕ)) :
    splitOngoing ref n all = (all, none) := by
  unfold splitOngoing
  cases all.getLast? with
  | none => rfl
  | some last => simp [h]

lemma pipe_ref_ne (obs : List ℕ) (ref : ℕ) (h : ref ≠ 0) :
    (pipe obs ref).eps = (pipe obs ref).epsAll ∧ (pipe obs ref).ongoing = none := by
  rw [pipe_eps, pipe_ongoing, splitOngoing_of_ref_ne ref h]
  exact ⟨rfl, rfl⟩

lemma epsAll_bounds (obs : List ℕ) (ref : ℕ) :
    ∀ e ∈ (pipe obs ref).epsAll, 1 ≤ e.2 ∧ e.1 + e.2 ≤ (pipe obs ref).window.length := by
  intro e he
  rw [pipe_epsAll] at he
  simpa using seg_mem_bounds (pipe obs ref).window 0 none trivial e he

instance : IsTrans (ℕ × ℕ) (fun a b : ℕ × ℕ => a.1 + a.2 < b.1) :=
  ⟨fun a b c h h' => by omega⟩

lemma epsAll_pairwise (obs : List ℕ) (ref : ℕ) :
    List.Pairwise (fun a b : ℕ × ℕ => a.1 + a.2 < b.1) (pipe obs ref).epsAll := by
  have h := seg_chain (pipe obs ref).window 0 none trivial
  rw [← pipe_epsAll_seg] at h
  exact List.chain'_iff_pairwise.mp h

lemma pipe_ref0_structure (obs : List ℕ) :
    ∃ last, (pipe obs 0).epsAll.getLast? = some last ∧
      last.1 + last.2 = (pipe obs 0).window.length ∧
      (pipe obs 0).ongoing = some last ∧
      (pipe obs 0).eps = (pipe obs 0).epsAll.dropLast := by
  have hw : (pipe obs 0).window = obs ++ [0] := by rw [pipe_window]; simp
  have hwl : (pipe obs 0).window.getLast? = some 0 := by
    rw [hw]
    exact List.getLast?_concat obs
  obtain ⟨last, hl, hsum⟩ := seg_last (pipe obs 0).window 0 none trivial hwl
  rw [← pipe_epsAll_seg] at hl
  refine ⟨last, hl, by simpa using hsum, ?_, ?_⟩
  · rw [pipe_ongoing]
    unfold splitOngoing
    rw [hl]
    simp only
    rw [if_pos ⟨by trivial, by omega⟩]
  · rw [pipe_eps]
    unfold splitOngoing
    rw [hl]
    simp only
    rw [if_pos ⟨by trivial, by omega⟩]

lemma eps_recency_ge_one (obs : List ℕ) (ref : ℕ) :
    ∀ e ∈ (pipe obs ref).eps, 1 ≤ recencyIn (pipe obs ref).window ref e := by
  intro e he
  by_cases href : ref = 0
  · subst href
    obtain ⟨last, hl, hsum, _, heps⟩ := pipe_ref0_structure obs
    rw [heps] at he
    have hmem : e ∈ (pipe obs 0).epsAll := List.mem_of_mem_dropLast he
    have hb := epsAll_bounds obs 0 e hmem
    have hne : (pipe obs 0).epsAll ≠ [] := by
      intro hnil
      rw [hnil] at hl
      cases hl
    have hlast_eq : (pipe obs 0).epsAll.getLast hne = last := by
      have := List.getLast?_eq_getLast (pipe obs 0).epsAll hne
      rw [this] at hl
      exact (Option.some.injEq _ _).mp hl
    have hpw := epsAll_pairwise obs 0
    have hsplit : (pipe obs 0).epsAll.dropLast ++ [last] = (pipe obs 0).epsAll := by
      rw [← hlast_eq]
      exact List.dropLast_append_getLast hne
    rw [← hsplit] at hpw
    have hrel := (List.pairwise_append.mp hpw).2.2 e he last (List.mem_singleton.mpr rfl)
    have hlb := epsAll_bounds obs 0 last (by rw [← hsplit]; exact List.mem_append_right _ (List.mem_singleton.mpr rfl))
    unfold recencyIn
    rw [if_pos rfl]
    omega
  · have heq := (pipe_ref_ne obs ref href).1
    rw [heq] at he
    have hb := epsAll_bounds obs ref e he
    unfold recencyIn
    rw [if_neg href]
    omega

lemma seg_sum_durations (l : List ℕ) : ∀ (i : ℕ) (st : Option (ℕ × ℕ)),
    ((seg l i st).map (fun e => e.2)).sum =
      l.countP (fun x => x == 0) + (match st with | none => 0 | some e => e.2) := by
  induction l with
  | nil =>
    intro i st
    cases st with
    | none => simp [seg_nil_none]
    | some e0 => simp [seg_nil_some]
  | cons x xs ih =>
    intro i st
    cases st with
    | none =>
      rw [seg_cons_none]
      by_cases hx : x = 0
      · rw [if_pos hx, ih (i + 1) (some (i, 1)), List.countP_cons]
        simp [hx]
      · rw [if_neg hx, ih (i + 1) none, List.countP_cons]
        simp [hx]
    | some e0 =>
      rw [seg_cons_some]
      by_cases hx : x = 0
      · rw [if_pos hx, ih (i + 1) (some (e0.1, e0.2 + 1)), List.countP_cons]
        simp [hx]
        omega
      · rw [if_neg hx]
        simp only [List.map_cons, List.sum_cons]
        rw [ih (i + 1) none, List.countP_cons]
        simp [hx]
        omega

lemma epsAll_sum_durations (obs : List ℕ) (ref : ℕ) :
    (((pipe obs ref).epsAll).map (fun e => e.2)).sum =
      (pipe obs ref).window.countP (fun x => x == 0) := by
  rw [pipe_epsAll]
  unfold findEpisodes
  rw [seg_sum_durations]
  rfl

lemma countP_binary (l : List ℕ) (hb : ∀ x ∈ l, x ≤ 1) :
    l.countP (fun x => x == 0) + l.countP (fun x => x == 1) = l.length := by
  induction l with
  | nil => simp
  | cons x xs ih =>
    have hx : x ≤ 1 := hb x (List.mem_cons_self x xs)
    have hxs : ∀ y ∈ xs, y ≤ 1 := fun y hy => hb y (List.mem_cons_of_mem x hy)
    rw [List.countP_cons, List.countP_cons, List.length_cons]
    have := ih hxs
    interval_cases x <;> simp <;> omega


/-! Lemmas about the duration-keyed grouping. -/

/-- Lookup by duration key in the association list. -/
def findG : List (ℕ × ℕ × ℤ) → ℕ → Option (ℕ × ℤ)
  | [], _ => none
  | (d0, v) :: rest, d => if d0 = d then some v else findG rest d

/-- Combine an optional `(F, R)` group with a further recency: a new key
starts at `(1, r)`, an existing one gets `F + 1` and `min R r`. -/
def bump : Option (ℕ × ℤ) → ℤ → Option (ℕ × ℤ)
  | none, r => some (1, r)
  | some v, r => some (v.1 + 1, min v.2 r)

lemma findG_insertEp (d' : ℕ) (r : ℤ) : ∀ (acc : List (ℕ × ℕ × ℤ)) (d : ℕ),
    findG (insertEp acc d' r) d =
      if d' = d then bump (findG acc d) r else findG acc d := by
  intro acc
  induction acc with
  | nil =>
    intro d
    by_cases h : d' = d
    · simp [insertEp, findG, h, bump]
    · simp [insertEp, findG, h]
  | cons a rest ih =>
    intro d
    obtain ⟨d0, v⟩ := a
    by_cases h0 : d0 = d'
    · subst h0
      by_cases h : d0 = d
      · simp [insertEp, findG, h, bump]
      · simp [insertEp, findG, h]
    · by_cases h : d0 = d
      · subst h
        rw [show insertEp ((d0, v) :: rest) d' r = (d0, v) :: insertEp rest d' r from by
          simp [insertEp, h0]]
        have hne : ¬ d' = d0 := fun hh => h0 hh.symm
        simp [findG, hne]
      · rw [show insertEp ((d0, v) :: rest) d' r = (d0, v) :: insertEp rest d' r from by
          simp [insertEp, h0]]
        simp [findG, h, ih d]

lemma insertEp_keys (d' : ℕ) (r : ℤ) : ∀ (acc : List (ℕ × ℕ × ℤ)),
    (insertEp acc d' r).map (fun g => g.1) =
      if d' ∈ acc.map (fun g => g.1) then acc.map (fun g => g.1)
      else acc.map (fun g => g.1) ++ [d'] := by
  intro acc
  induction acc with
  | nil => simp [insertEp]
  | cons a rest ih =>
    obtain ⟨d0, v⟩ := a
    by_cases h0 : d0 = d'
    · subst h0
      simp [insertEp]
    · rw [show insertEp ((d0, v) :: rest) d' r = (d0, v) :: insertEp rest d' r from by
        simp [insertEp, h0]]
      simp only [List.map_cons, ih]
      by_cases hmem : d' ∈ rest.map (fun g => g.1)
      · rw [if_pos hmem,
          if_pos (show d' ∈ d0 :: rest.map (fun g => g.1) from List.mem_cons_of_mem _ hmem)]
      · have hd0 : d' ≠ d0 := fun hh => h0 hh.symm
        rw [if_neg hmem, if_neg (show d' ∉ d0 :: rest.map (fun g => g.1) from by
          simp [hmem, hd0])]
        rfl

lemma insertEp_keys_nodup (d' : ℕ) (r : ℤ) (acc : List (ℕ × ℕ × ℤ))
    (h : (acc.map (fun g => g.1)).Nodup) :
    ((insertEp acc d' r).map (fun g => g.1)).Nodup := by
  rw [insertEp_keys]
  by_cases hmem : d' ∈ acc.map (fun g => g.1)
  · rwa [if_pos hmem]
  · rw [if_neg hmem]
    simp [List.nodup_append, h, hmem]

/-- The recencies that the episodes of duration `d` contribute. -/
def recsOf (w : List ℕ) (ref : ℕ) (eps : List (ℕ × ℕ)) (d : ℕ) : List ℤ :=
  (eps.filter (fun e => e.2 == d)).map (recencyIn w ref)

lemma recsOf_nil (w : List ℕ) (ref : ℕ) (d : ℕ) : recsOf w ref [] d = [] := rfl

lemma recsOf_cons (w : List ℕ) (ref : ℕ) (e : ℕ × ℕ) (eps : List (ℕ × ℕ)) (d : ℕ) :
    recsOf w ref (e :: eps) d =
      if e.2 = d then recencyIn w ref e :: recsOf w ref eps d else recsOf w ref eps d := by
  unfold recsOf
  by_cases h : e.2 = d
  · simp [List.filter_cons, h]
  · simp [List.filter_cons, h]

lemma findG_foldl (w : List ℕ) (ref : ℕ) : ∀ (eps : List (ℕ × ℕ)) (acc : List (ℕ × ℕ × ℤ)) (d : ℕ),
    findG (eps.foldl (fun acc e => insertEp acc e.2 (recencyIn w ref e)) acc) d =
      (recsOf w ref eps d).foldl bump (findG acc d) := by
  intro eps
  induction eps with
  | nil => intro acc d; simp [recsOf_nil]
  | cons e eps ih =>
    intro acc d
    rw [List.foldl_cons, ih, recsOf_cons, findG_insertEp]
    by_cases h : e.2 = d
    · rw [if_pos h, if_pos h, List.foldl_cons]
    · rw [if_neg h, if_neg h]

lemma foldl_bump_some (rs : List ℤ) : ∀ (f : ℕ) (m : ℤ),
    rs.foldl bump (some (f, m)) = some (f + rs.length, rs.foldl min m) := by
  induction rs with
  | nil => intro f m; simp
  | cons r rs ih =>
    intro f m
    rw [List.foldl_cons, show bump (some (f, m)) r = some (f + 1, min m r) from rfl,
      ih (f + 1) (min m r), List.foldl_cons]
    simp only [List.length_cons]
    rw [show f + 1 + rs.length = f + (rs.length + 1) from by omega]

lemma foldl_bump_none (rs : List ℤ) (hne : rs ≠ []) :
    ∃ r0 rs0, rs = r0 :: rs0 ∧
      rs.foldl bump none = some (rs.length, rs0.foldl min r0) := by
  cases rs with
  | nil => exact absurd rfl hne
  | cons r0 rs0 =>
    refine ⟨r0, rs0, rfl, ?_⟩
    rw [List.foldl_cons, show bump none r0 = some (1, r0) from rfl, foldl_bump_some]
    simp [Nat.add_comm]

lemma foldl_min_mem (rs : List ℤ) : ∀ (m : ℤ), rs.foldl min m = m ∨ rs.foldl min m ∈ rs := by
  induction rs with
  | nil => intro m; left; rfl
  | cons r rs ih =>
    intro m
    rw [List.foldl_cons]
    rcases ih (min m r) with h | h
    · rcases le_total m r with hle | hle
      · left; rw [h, min_eq_left hle]
      · right; rw [h, min_eq_right hle]; exact List.mem_cons_self r rs
    · right; exact List.mem_cons_of_mem r h

lemma foldl_min_le (rs : List ℤ) : ∀ (m : ℤ), rs.foldl min m ≤ m ∧ ∀ r ∈ rs, rs.foldl min m ≤ r := by
  induction rs with
  | nil => intro m; exact ⟨le_refl m, fun r hr => absurd hr (List.not_mem_nil r)⟩
  | cons r rs ih =>
    intro m
    rw [List.foldl_cons]
    obtain ⟨h1, h2⟩ := ih (min m r)
    refine ⟨le_trans h1 (min_le_left m r), fun r' hr' => ?_⟩
    rcases List.mem_cons.mp hr' with rfl | hr'
    · exact le_trans h1 (min_le_right m r')
    · exact h2 r' hr'


lemma buildGroups_keys_nodup (w : List ℕ) (ref : ℕ) (eps : List (ℕ × ℕ)) :
    ((buildGroups w ref eps).map (fun g => g.1)).Nodup := by
  unfold buildGroups
  suffices h : ∀ (acc : List (ℕ × ℕ × ℤ)), (acc.map (fun g => g.1)).Nodup →
      ((eps.foldl (fun acc e => insertEp acc e.2 (recencyIn w ref e)) acc).map
        (fun g => g.1)).Nodup by
    exact h [] (by simp)
  induction eps with
  | nil => intro acc hacc; exact hacc
  | cons e eps ih =>
    intro acc hacc
    rw [List.foldl_cons]
    exact ih _ (insertEp_keys_nodup e.2 (recencyIn w ref e) acc hacc)

lemma buildGroups_findG (w : List ℕ) (ref : ℕ) (eps : List (ℕ × ℕ)) (d : ℕ) :
    findG (buildGroups w ref eps) d = (recsOf w ref eps d).foldl bump none := by
  unfold buildGroups
  rw [findG_foldl]
  rfl

lemma findG_eq_none_iff (d : ℕ) : ∀ (acc : List (ℕ × ℕ × ℤ)),
    findG acc d = none ↔ d ∉ acc.map (fun g => g.1) := by
  intro acc
  induction acc with
  | nil => simp [findG]
  | cons a rest ih =>
    obtain ⟨d0, v⟩ := a
    by_cases h : d0 = d
    · subst h
      simp [findG]
    · simp only [findG, if_neg h, List.map_cons, List.mem_cons]
      rw [ih]
      constructor
      · intro hnone hor
        rcases hor with heq | hmem
        · exact h heq.symm
        · exact hnone hmem
      · intro hnot hmem
        exact hnot (Or.inr hmem)

lemma findG_of_mem (g : ℕ × ℕ × ℤ) : ∀ (acc : List (ℕ × ℕ × ℤ)),
    (acc.map (fun g => g.1)).Nodup → g ∈ acc → findG acc g.1 = some g.2 := by
  intro acc
  induction acc with
  | nil => intro _ hg; exact absurd hg (List.not_mem_nil g)
  | cons a rest ih =>
    intro hnd hg
    obtain ⟨d0, v⟩ := a
    have hnd' : (d0 :: rest.map (fun gg => gg.1)).Nodup := by simpa using hnd
    obtain ⟨hnotin, hrest⟩ := List.nodup_cons.mp hnd'
    rcases List.mem_cons.mp hg with rfl | hg'
    · simp [findG]
    · have hkey : g.1 ∈ rest.map (fun gg => gg.1) := List.mem_map_of_mem _ hg'
      have hne : ¬ d0 = g.1 := fun heq => hnotin (heq ▸ hkey)
      simp only [findG, if_neg hne]
      exact ih hrest hg'

lemma mem_findG (g : ℕ × ℕ × ℤ) : ∀ (acc : List (ℕ × ℕ × ℤ)),
    findG acc g.1 = some g.2 → g ∈ acc := by
  intro acc
  induction acc with
  | nil => intro h; cases h
  | cons a rest ih =>
    intro h
    obtain ⟨d0, v⟩ := a
    by_cases hd : d0 = g.1
    · subst hd
      have hv : v = g.2 := by simpa [findG] using h
      subst hv
      exact List.mem_cons_self _ _
    · simp only [findG, if_neg hd] at h
      exact List.mem_cons_of_mem _ (ih h)

lemma recsOf_ne_nil_iff (w : List ℕ) (ref : ℕ) (eps : List (ℕ × ℕ)) (d : ℕ) :
    recsOf w ref eps d ≠ [] ↔ ∃ e ∈ eps, e.2 = d := by
  unfold recsOf
  rw [ne_eq, List.map_eq_nil_iff]
  rw [List.filter_eq_nil_iff]
  push_neg
  constructor
  · rintro ⟨e, he, hd⟩
    exact ⟨e, he, by simpa using hd⟩
  · rintro ⟨e, he, hd⟩
    exact ⟨e, he, by simpa using hd⟩

lemma baseRows_mem_group (obs : List ℕ) (ref : ℕ) (row : RfiRow) :
    row ∈ (pipe obs ref).baseRows ↔
      findG (buildGroups (pipe obs ref).window ref (pipe obs ref).eps) row.I =
        some (row.F, row.R) := by
  rw [pipe_baseRows]
  constructor
  · intro hrow
    obtain ⟨g, hg, hmap⟩ := List.mem_map.mp hrow
    have := findG_of_mem g _
      (buildGroups_keys_nodup (pipe obs ref).window ref (pipe obs ref).eps) hg
    have hI : row.I = g.1 := by rw [← hmap]
    have hF : row.F = g.2.1 := by rw [← hmap]
    have hR : row.R = g.2.2 := by rw [← hmap]
    rw [hI, hF, hR]
    simpa using this
  · intro hfind
    refine List.mem_map.mpr ⟨(row.I, row.F, row.R), ?_, rfl⟩
    exact mem_findG (row.I, row.F, row.R) _ hfind

lemma baseRows_char (obs : List ℕ) (ref : ℕ) (row : RfiRow)
    (hrow : row ∈ (pipe obs ref).baseRows) :
    (recsOf (pipe obs ref).window ref (pipe obs ref).eps row.I ≠ []) ∧
    row.F = (recsOf (pipe obs ref).window ref (pipe obs ref).eps row.I).length ∧
    row.R ∈ recsOf (pipe obs ref).window ref (pipe obs ref).eps row.I ∧
    (∀ r ∈ recsOf (pipe obs ref).window ref (pipe obs ref).eps row.I, row.R ≤ r) := by
  have hfind := (baseRows_mem_group obs ref row).mp hrow
  rw [buildGroups_findG] at hfind
  set recs := recsOf (pipe obs ref).window ref (pipe obs ref).eps row.I with hrecs
  have hne : recs ≠ [] := by
    intro hnil
    rw [hnil] at hfind
    cases hfind
  obtain ⟨r0, rs0, hcons, hval⟩ := foldl_bump_none recs hne
  rw [hval] at hfind
  have hF : row.F = recs.length := by
    have := (Option.some.injEq _ _).mp hfind
    exact (congrArg Prod.fst this).symm
  have hRval : row.R = rs0.foldl min r0 := by
    have := (Option.some.injEq _ _).mp hfind
    exact (congrArg Prod.snd this).symm
  refine ⟨hne, hF, ?_, ?_⟩
  · rw [hRval, hcons]
    rcases foldl_min_mem rs0 r0 with h | h
    · rw [h]; exact List.mem_cons_self r0 rs0
    · exact List.mem_cons_of_mem r0 h
  · intro r hr
    rw [hcons] at hr
    rcases List.mem_cons.mp hr with rfl | hr'
    · rw [hRval]; exact (foldl_min_le rs0 r).1
    · rw [hRval]; exact (foldl_min_le rs0 r0).2 r hr'

lemma baseRows_cover (obs : List ℕ) (ref : ℕ) (d : ℕ) :
    (∃ e ∈ (pipe obs ref).eps, e.2 = d) ↔
      ∃ row ∈ (pipe obs ref).baseRows, row.I = d := by
  constructor
  · intro h
    have hne := (recsOf_ne_nil_iff (pipe obs ref).window ref (pipe obs ref).eps d).mpr h
    have hfind := buildGroups_findG (pipe obs ref).window ref (pipe obs ref).eps d
    obtain ⟨r0, rs0, hcons, hval⟩ := foldl_bump_none _ hne
    rw [hval] at hfind
    refine ⟨⟨d, (recsOf (pipe obs ref).window ref (pipe obs ref).eps d).length,
      rs0.foldl min r0⟩, ?_, rfl⟩
    exact (baseRows_mem_group obs ref _).mpr (by simpa using hfind)
  · rintro ⟨row, hrow, rfl⟩
    have h := baseRows_char obs ref row hrow
    exact (recsOf_ne_nil_iff _ _ _ _).mp h.1

lemma baseRows_keys_nodup (obs : List ℕ) (ref : ℕ) :
    ((pipe obs ref).baseRows.map (fun row => row.I)).Nodup := by
  rw [pipe_baseRows, List.map_map]
  exact buildGroups_keys_nodup (pipe obs ref).window ref (pipe obs ref).eps

lemma baseRows_nil_iff (obs : List ℕ) (ref : ℕ) :
    (pipe obs ref).baseRows = [] ↔ (pipe obs ref).eps = [] := by
  constructor
  · intro h
    cases heps : (pipe obs ref).eps with
    | nil => rfl
    | cons e eps =>
      have hcover := (baseRows_cover obs ref e.2).mp
        ⟨e, by rw [heps]; exact List.mem_cons_self e eps, rfl⟩
      obtain ⟨row, hrow, _⟩ := hcover
      rw [h] at hrow
      exact absurd hrow (List.not_mem_nil row)
  · intro h
    rw [pipe_baseRows, h]
    rfl

lemma rows_nil_iff (obs : List ℕ) (ref : ℕ) :
    (pipe obs ref).rows = [] ↔
      (pipe obs ref).eps = [] ∧ (pipe obs ref).ongoing = none := by
  rw [pipe_rows, List.append_eq_nil, baseRows_nil_iff]
  constructor
  · rintro ⟨h1, h2⟩
    refine ⟨h1, ?_⟩
    cases hog : (pipe obs ref).ongoing with
    | none => rfl
    | some e => rw [hog] at h2; cases h2
  · rintro ⟨h1, h2⟩
    rw [h2]
    exact ⟨h1, rfl⟩


/-! Remaining helper lemmas. -/

lemma relevance_eq_zero (row : RfiRow) (h : 90 ≤ row.R ∨ row.R = 0) :
    relevance row = 0 := by
  unfold relevance round2
  rcases h with h | h
  · rw [if_neg (not_lt.mpr h)]
    simp
  · rw [if_neg (fun hne : row.R ≠ 0 => hne h)]
    simp

lemma baseRows_R_pos (obs : List ℕ) (ref : ℕ) :
    ∀ row ∈ (pipe obs ref).baseRows, 1 ≤ row.R := by
  intro row hrow
  obtain ⟨_, _, hmem, _⟩ := baseRows_char obs ref row hrow
  unfold recsOf at hmem
  obtain ⟨e, hef, heq⟩ := List.mem_map.mp hmem
  have he : e ∈ (pipe obs ref).eps := List.mem_of_mem_filter hef
  rw [← heq]
  exact eps_recency_ge_one obs ref e he

lemma mem_rows_cases (obs : List ℕ) (ref : ℕ) (row : RfiRow)
    (hrow : row ∈ (pipe obs ref).rows) :
    row ∈ (pipe obs ref).baseRows ∨
      ∃ e, (pipe obs ref).ongoing = some e ∧ row = ⟨e.2, 1, 0⟩ := by
  rw [pipe_rows] at hrow
  rcases List.mem_append.mp hrow with h | h
  · exact Or.inl h
  · right
    cases hog : (pipe obs ref).ongoing with
    | none => rw [hog] at h; exact absurd h (List.not_mem_nil row)
    | some e =>
      rw [hog] at h
      exact ⟨e, rfl, List.mem_singleton.mp h⟩

/-- C2: for every input sequence, each non-ongoing inactivity episode gets
recency `R = len(window) - (start + duration - 1) - (1 if reference == 0
else 0)`; the episodes are grouped by duration into exactly one row per
distinct duration (`F` = the number of episodes of that duration, `R` = the
minimum of their recencies); an ongoing episode contributes exactly one
extra row `I = duration, F = 1, R = 0`; and the returned table is sorted in
ascending order of `R`. -/
theorem C2_rfi_table_construction (obs : List ℕ) (ref : ℕ) :
    (((pipe obs ref).baseRows.map (fun row => row.I)).Nodup) ∧
    (∀ d : ℕ, (∃ e ∈ (pipe obs ref).eps, e.2 = d) ↔
      ∃ row ∈ (pipe obs ref).baseRows, row.I = d) ∧
    (∀ row ∈ (pipe obs ref).baseRows,
      row.F = (pipe obs ref).eps.countP (fun e => e.2 == row.I) ∧
      row.R ∈ ((pipe obs ref).eps.filter (fun e => e.2 == row.I)).map
        (fun e => ((pipe obs ref).window.length : ℤ) - ((e.1 : ℤ) + (e.2 : ℤ) - 1) -
          (if ref = 0 then 1 else 0)) ∧
      ∀ r ∈ ((pipe obs ref).eps.filter (fun e => e.2 == row.I)).map
        (fun e => ((pipe obs ref).window.length : ℤ) - ((e.1 : ℤ) + (e.2 : ℤ) - 1) -
          (if ref = 0 then 1 else 0)), row.R ≤ r) ∧
    (∀ e, (pipe obs ref).ongoing = some e →
      (pipe obs ref).rows = (pipe obs ref).baseRows ++ [⟨e.2, 1, 0⟩]) ∧
    ((pipe obs ref).ongoing = none → (pipe obs ref).rows = (pipe obs ref).baseRows) ∧
    (pipe obs ref).sorted.Perm (pipe obs ref).rows ∧
    List.Sorted (fun a b : RfiRow => a.R ≤ b.R) (pipe obs ref).sorted := by
  refine ⟨baseRows_keys_nodup obs ref, baseRows_cover obs ref, ?_, ?_, ?_, ?_, ?_⟩
  · intro row hrow
    obtain ⟨hne, hF, hmem, hle⟩ := baseRows_char obs ref row hrow
    refine ⟨?_, hmem, hle⟩
    rw [hF]
    unfold recsOf
    rw [List.length_map, ← List.countP_eq_length_filter]
  · intro e he
    rw [pipe_rows, he]
  · intro he
    rw [pipe_rows, he]
    simp
  · rw [pipe_sorted]
    exact List.perm_insertionSort rowLe _
  · rw [pipe_sorted]
    exact List.sorted_insertionSort rowLe _

theorem C2_rfi_table_construction_witness :
    (pipe [0, 1, 0, 0] 0).sorted.Perm (pipe [0, 1, 0, 0] 0).rows ∧
    List.Sorted (fun a b : RfiRow => a.R ≤ b.R) (pipe [0, 1, 0, 0] 0).sorted ∧
    ((⟨1, 1, 4⟩ : RfiRow) ∈ (pipe [0, 1, 0, 0] 0).baseRows) ∧
    (⟨1, 1, 4⟩ : RfiRow).F =
      (pipe [0, 1, 0, 0] 0).eps.countP (fun e => e.2 == (⟨1, 1, 4⟩ : RfiRow).I) :=
  ⟨(C2_rfi_table_construction [0, 1, 0, 0] 0).2.2.2.2.2.1,
   (C2_rfi_table_construction [0, 1, 0, 0] 0).2.2.2.2.2.2,
   by decide,
   ((C2_rfi_table_construction [0, 1, 0, 0] 0).2.2.1 ⟨1, 1, 4⟩ (by decide)).1⟩

/-- C10: in every RFI table a row has `R = 0` exactly when it is the
ongoing-episode row; every row built from non-ongoing episodes has
`R ≥ 1`. -/
theorem C10_zero_recency_iff_ongoing (obs : List ℕ) (ref : ℕ) :
    ∀ row ∈ (pipe obs ref).rows,
      (row.R = 0 ↔ ∃ e, (pipe obs ref).ongoing = some e ∧ row = ⟨e.2, 1, 0⟩) ∧
      (row ∈ (pipe obs ref).baseRows → 1 ≤ row.R) := by
  intro row hrow
  constructor
  · constructor
    · intro hR0
      rcases mem_rows_cases obs ref row hrow with h | h
      · have := baseRows_R_pos obs ref row h
        omega
      · exact h
    · rintro ⟨e, _, rfl⟩
      rfl
  · intro hbase
    exact baseRows_R_pos obs ref row hbase

theorem C10_zero_recency_iff_ongoing_witness :
    ((⟨2, 1, 0⟩ : RfiRow) ∈ (pipe [1, 0] 0).rows) ∧
    ((⟨2, 1, 0⟩ : RfiRow).R = 0 ↔
      ∃ e, (pipe [1, 0] 0).ongoing = some e ∧ (⟨2, 1, 0⟩ : RfiRow) = ⟨e.2, 1, 0⟩) :=
  ⟨by decide, (C10_zero_recency_iff_ongoing [1, 0] 0 ⟨2, 1, 0⟩ (by decide)).1⟩

/-- C9: the durations of all emitted inactivity episodes (ongoing included)
plus the number of active days in the window add up to the length of the
(possibly extended) observation window. -/
theorem C9_duration_partition (obs : List ℕ) (ref : ℕ) (hb : ∀ x ∈ obs, x ≤ 1) :
    (((pipe obs ref).eps.map (fun e => e.2)).sum +
        (match (pipe obs ref).ongoing with | some e => e.2 | none => 0)) +
      (pipe obs ref).window.countP (fun x => x == 1) =
      (pipe obs ref).window.length := by
  have hsum : ((pipe obs ref).eps.map (fun e => e.2)).sum +
      (match (pipe obs ref).ongoing with | some e => e.2 | none => 0) =
      (((pipe obs ref).epsAll).map (fun e => e.2)).sum := by
    by_cases href : ref = 0
    · subst href
      obtain ⟨last, hl, _, hog, heps⟩ := pipe_ref0_structure obs
      have hne : (pipe obs 0).epsAll ≠ [] := by
        intro hnil
        rw [hnil] at hl
        cases hl
      have hlast_eq : (pipe obs 0).epsAll.getLast hne = last := by
        have := List.getLast?_eq_getLast (pipe obs 0).epsAll hne
        rw [this] at hl
        exact (Option.some.injEq _ _).mp hl
      have hsplit : (pipe obs 0).epsAll.dropLast ++ [last] = (pipe obs 0).epsAll := by
        rw [← hlast_eq]
        exact List.dropLast_append_getLast hne
      rw [hog, heps, ← hsplit, List.map_append, List.sum_append]
      simp
    · obtain ⟨heps, hog⟩ := pipe_ref_ne obs ref href
      rw [hog, heps]
      rfl
  rw [hsum, epsAll_sum_durations]
  have hwb : ∀ x ∈ (pipe obs ref).window, x ≤ 1 := by
    intro x hx
    rw [pipe_window] at hx
    by_cases href : ref = 0
    · rw [if_pos href] at hx
      rcases List.mem_append.mp hx with h | h
      · exact hb x h
      · rw [List.mem_singleton.mp h]
        omega
    · rw [if_neg href] at hx
      exact hb x hx
  exact countP_binary (pipe obs ref).window hwb

theorem C9_duration_partition_witness :
    (∀ x ∈ [1, 0, 0, 1], x ≤ 1) ∧
    ((((pipe [1, 0, 0, 1] 0).eps.map (fun e => e.2)).sum +
        (match (pipe [1, 0, 0, 1] 0).ongoing with | some e => e.2 | none => 0)) +
      (pipe [1, 0, 0, 1] 0).window.countP (fun x => x == 1) =
      (pipe [1, 0, 0, 1] 0).window.length) :=
  ⟨by decide, C9_duration_partition [1, 0, 0, 1] 0 (by decide)⟩


/-- C1: every row of the produced RFI table has
`Relevance = round(I * F * exp(-(1/30) * sqrt(R+1)) * [R < 90] * [R != 0], 2)`;
in particular a row with `R ≥ 90`, and the ongoing-episode row (which has
`R = 0`), have Relevance exactly `0`. -/
theorem C1_relevance_formula (obs : List ℕ) (ref : ℕ) :
    (∀ row ∈ (pipe obs ref).sorted,
      relevance row = round2 ((row.I : ℝ) * (row.F : ℝ) *
        Real.exp (-(1 / 30 : ℝ) * Real.sqrt ((row.R : ℝ) + 1)) *
        (if row.R < 90 then 1 else 0) * (if row.R ≠ 0 then 1 else 0)) ∧
      (90 ≤ row.R → relevance row = 0) ∧
      (row.R = 0 → relevance row = 0)) ∧
    (∀ e, (pipe obs ref).ongoing = some e → relevance ⟨e.2, 1, 0⟩ = 0) := by
  refine ⟨fun row _ => ⟨rfl, ?_, ?_⟩, fun e _ => ?_⟩
  · intro h
    exact relevance_eq_zero row (Or.inl h)
  · intro h
    exact relevance_eq_zero row (Or.inr h)
  · exact relevance_eq_zero ⟨e.2, 1, 0⟩ (Or.inr rfl)

theorem C1_relevance_formula_witness :
    ((⟨1, 1, 2⟩ : RfiRow) ∈ (pipe [0, 1] 1).sorted) ∧
    (relevance ⟨1, 1, 2⟩ = round2 (((1 : ℕ) : ℝ) * ((1 : ℕ) : ℝ) *
        Real.exp (-(1 / 30 : ℝ) * Real.sqrt (((2 : ℤ) : ℝ) + 1)) *
        (if (2 : ℤ) < 90 then 1 else 0) * (if (2 : ℤ) ≠ 0 then 1 else 0)) ∧
      (90 ≤ (⟨1, 1, 2⟩ : RfiRow).R → relevance ⟨1, 1, 2⟩ = 0) ∧
      ((⟨1, 1, 2⟩ : RfiRow).R = 0 → relevance ⟨1, 1, 2⟩ = 0)) :=
  ⟨by decide, (C1_relevance_formula [0, 1] 1).1 ⟨1, 1, 2⟩ (by decide)⟩

/-- C3: the dormancy score is the Relevance-weighted average of the `I`
column rounded to the nearest integer when the table is non-empty and the
Relevance sum is positive, and `0` otherwise; in particular a user with no
inactivity episodes, a user whose only inactivity is a single ongoing gap,
and a user whose non-ongoing recencies are all at least 90 days, each get
dormancy `0`. -/
theorem C3_dormancy (obs : List ℕ) (ref : ℕ) :
    ((pipe obs ref).sorted ≠ [] → 0 < ((pipe obs ref).sorted.map relevance).sum →
      dormancyCore obs ref = roundHalfEven
        ((((pipe obs ref).sorted.map (fun r => (r.I : ℝ) * relevance r)).sum) /
          ((pipe obs ref).sorted.map relevance).sum)) ∧
    ((pipe obs ref).sorted = [] ∨ ((pipe obs ref).sorted.map relevance).sum ≤ 0 →
      dormancyCore obs ref = 0) ∧
    ((pipe obs ref).eps = [] ∧ (pipe obs ref).ongoing = none →
      dormancyCore obs ref = 0) ∧
    (∀ e, (pipe obs ref).eps = [] ∧ (pipe obs ref).ongoing = some e →
      dormancyCore obs ref = 0) ∧
    ((∀ row ∈ (pipe obs ref).baseRows, 90 ≤ row.R) → dormancyCore obs ref = 0) := by
  have hzero : (pipe obs ref).sorted = [] ∨ ((pipe obs ref).sorted.map relevance).sum ≤ 0 →
      dormancyCore obs ref = 0 := by
    intro h
    unfold dormancyCore
    rw [if_neg]
    rintro ⟨h1, h2⟩
    rcases h with h | h
    · exact h1 h
    · exact absurd h2 (not_lt.mpr h)
  have hrelsum : (∀ row ∈ (pipe obs ref).rows, relevance row = 0) →
      ((pipe obs ref).sorted.map relevance).sum = 0 := by
    intro hall
    have hperm : ((pipe obs ref).sorted.map relevance).Perm
        ((pipe obs ref).rows.map relevance) := by
      rw [pipe_sorted]
      exact (List.perm_insertionSort rowLe _).map relevance
    rw [hperm.sum_eq]
    exact List.sum_eq_zero (fun x hx => by
      obtain ⟨row, hrow, hval⟩ := List.mem_map.mp hx
      rw [← hval]
      exact hall row hrow)
  refine ⟨?_, hzero, ?_, ?_, ?_⟩
  · intro h1 h2
    unfold dormancyCore
    rw [if_pos ⟨h1, h2⟩]
  · rintro ⟨heps, hog⟩
    refine hzero (Or.inl ?_)
    rw [pipe_sorted, (rows_nil_iff obs ref).mpr ⟨heps, hog⟩]
    rfl
  · rintro e ⟨heps, hog⟩
    refine hzero (Or.inr ?_)
    have hall : ∀ row ∈ (pipe obs ref).rows, relevance row = 0 := by
      intro row hrow
      rcases mem_rows_cases obs ref row hrow with h | h
      · rw [(baseRows_nil_iff obs ref).mpr heps] at h
        exact absurd h (List.not_mem_nil row)
      · obtain ⟨e0, _, rfl⟩ := h
        exact relevance_eq_zero _ (Or.inr rfl)
    rw [hrelsum hall]
  · intro h90
    refine hzero (Or.inr ?_)
    have hall : ∀ row ∈ (pipe obs ref).rows, relevance row = 0 := by
      intro row hrow
      rcases mem_rows_cases obs ref row hrow with h | h
      · exact relevance_eq_zero row (Or.inl (h90 row h))
      · obtain ⟨e0, _, rfl⟩ := h
        exact relevance_eq_zero _ (Or.inr rfl)
    rw [hrelsum hall]

theorem C3_dormancy_witness :
    ((pipe [1, 1] 0).eps = [] ∧ (pipe [1, 1] 0).ongoing = some (2, 1)) ∧
    dormancyCore [1, 1] 0 = 0 :=
  ⟨by decide, (C3_dormancy [1, 1] 0).2.2.2.1 (2, 1) (by decide)⟩


/-- C7: `inactivity_growth_rate` is the mean of consecutive duration ratios
(ratio `1` when the previous duration is `0`) when there are at least two
non-ongoing episodes, `1` when there are fewer than two non-ongoing
episodes but the RFI table is non-empty, and `0` when the table is
empty. -/
theorem C7_growth_rate (obs : List ℕ) (ref : ℕ) :
    (featuresOf obs ref).inactivity_growth_rate =
      if 2 ≤ (pipe obs ref).eps.length then
        (List.zipWith (fun p c : ℕ => if 0 < p then (c : ℚ) / (p : ℚ) else 1)
          ((pipe obs ref).eps.map (fun e => e.2))
          ((pipe obs ref).eps.map (fun e => e.2)).tail).sum /
        ((List.zipWith (fun p c : ℕ => if 0 < p then (c : ℚ) / (p : ℚ) else 1)
          ((pipe obs ref).eps.map (fun e => e.2))
          ((pipe obs ref).eps.map (fun e => e.2)).tail).length : ℚ)
      else if (pipe obs ref).rows ≠ [] then 1 else 0 := by
  by_cases h : (pipe obs ref).rows = []
  · have heps : (pipe obs ref).eps = [] := ((rows_nil_iff obs ref).mp h).1
    unfold featuresOf
    rw [if_pos h]
    rw [heps]
    simp [h]
  · unfold featuresOf
    rw [if_neg h]
    simp only
    by_cases hlen : 1 < (pipe obs ref).eps.length
    · rw [if_pos hlen, if_pos (show 2 ≤ (pipe obs ref).eps.length from hlen)]
    · rw [if_neg hlen, if_neg (show ¬ 2 ≤ (pipe obs ref).eps.length from hlen),
        if_pos h]

/-- C8 counterexample: an all-active window of length 8 reaches the
empty-table branch, so the periodicity score is 0 although the window is
longer than 7 days and the claimed autocorrelation formula evaluates to
1/2. -/
theorem C8_periodicity_counterexample :
    ¬ ((featuresOf (List.replicate 8 1) 1).activity_periodicity_score =
      if 7 < (pipe (List.replicate 8 1) 1).window.length then
        (∑ k in Finset.Icc 1 (min 29 ((pipe (List.replicate 8 1) 1).window.length - 1)),
          (ac (pipe (List.replicate 8 1) 1).window k : ℚ) /
            (acMax (pipe (List.replicate 8 1) 1).window : ℚ)) /
        ((min 29 ((pipe (List.replicate 8 1) 1).window.length - 1) : ℕ) : ℚ)
      else 0) := by
  intro heq
  have hL : (featuresOf (List.replicate 8 1) 1).activity_periodicity_score = 0 := by
    unfold featuresOf
    rw [if_pos (by decide)]
  rw [hL, if_pos (by decide)] at heq
  have hc : ((min 29 ((pipe (List.replicate 8 1) 1).window.length - 1) : ℕ) : ℚ) = 7 := by
    rw [show (min 29 ((pipe (List.replicate 8 1) 1).window.length - 1) : ℕ) = 7 from by decide]
    norm_num
  rw [hc] at heq
  have hpos : 0 < ∑ k in Finset.Icc 1 (min 29 ((pipe (List.replicate 8 1) 1).window.length - 1)),
      (ac (pipe (List.replicate 8 1) 1).window k : ℚ) /
        (acMax (pipe (List.replicate 8 1) 1).window : ℚ) := by
    apply Finset.sum_pos'
    · intro k _
      positivity
    · refine ⟨1, by decide, ?_⟩
      rw [show ac (pipe (List.replicate 8 1) 1).window 1 = 7 from by decide,
        show acMax (pipe (List.replicate 8 1) 1).window = 8 from by decide]
      norm_num
  exact absurd heq.symm (ne_of_gt (div_pos hpos (by norm_num)))

/-- C8 (amended): the periodicity score is `0` whenever the RFI table is
empty; otherwise it is `0` for windows of length at most 7 and equals the
normalized-autocorrelation formula (sum over lags `1 .. min(29, len-1)`,
divided by `min(29, len-1)`) for longer windows. -/
theorem C8_periodicity_amended (obs : List ℕ) (ref : ℕ) :
    (featuresOf obs ref).activity_periodicity_score =
      if (pipe obs ref).rows = [] then 0
      else if 7 < (pipe obs ref).window.length then
        (∑ k in Finset.Icc 1 (min 29 ((pipe obs ref).window.length - 1)),
          (ac (pipe obs ref).window k : ℚ) / (acMax (pipe obs ref).window : ℚ)) /
        ((min 29 ((pipe obs ref).window.length - 1) : ℕ) : ℚ)
      else 0 := by
  by_cases h : (pipe obs ref).rows = []
  · unfold featuresOf
    rw [if_pos h, if_pos h]
  · unfold featuresOf
    rw [if_neg h, if_neg h]
    simp only
    by_cases hlen : 7 < (pipe obs ref).window.length
    · rw [if_pos hlen, if_pos hlen]
      have hset : Finset.Ico 1 (min 30 (pipe obs ref).window.length) =
          Finset.Icc 1 (min 29 ((pipe obs ref).window.length - 1)) := by
        rw [← Nat.Ico_succ_right]
        congr 1
        omega
      rw [hset]
    · rw [if_neg hlen, if_neg hlen]


/-- C4 counterexample: a zero-length activity sequence does not yield
all-zero features and an empty RFI table; `activity[-1]` raises
`IndexError`, modelled as `none`. -/
theorem C4_empty_counterexample : ¬ ∃ v, get_rfi_matrix [] = some v := by
  rintro ⟨v, hv⟩
  exact Option.noConfusion hv

/-- C4 (amended): a zero-length activity sequence makes the pipeline raise
an index error (`none`); the shortest valid sequence with an empty
observation window and an active reference day yields all-zero features, an
empty RFI table and dormancy `0`; and the segmenter on an empty window
returns an empty episode list. -/
theorem C4_empty_amended :
    get_rfi_matrix [] = none ∧
    get_rfi_matrix [1] = some ([], ⟨0, 0, 0, 0, 0, 0, 0, 0, 0, 0, 0⟩) ∧
    calculate_dormancy [1] = some 0 ∧
    findEpisodes [] = [] := by
  refine ⟨rfl, rfl, ?_, rfl⟩
  have h0 : dormancyCore [] 1 = 0 := by
    unfold dormancyCore
    rw [if_neg]
    rintro ⟨h1, _⟩
    exact h1 rfl
  unfold calculate_dormancy
  rw [show splitAct [1] = some ([], 1) from rfl, Option.map_some']
  rw [show dormancyCore ([], 1).1 ([], 1).2 = dormancyCore [] 1 from rfl, h0]

/-- C5 counterexample: the batch loop of `render_process_all_users` emits a
completion banner that depends only on the user count, so a batch in which
a user failed (and was zero-filled) reports exactly the same summary as a
fully successful batch: the failure is not surfaced. -/
theorem C5_silent_failure_counterexample :
    ((render_process_all_users
        (fun uid => if uid = 0 then Except.error "boom" else Except.ok (1, 1, 5)) 2).2 =
      (render_process_all_users (fun _ => Except.ok (1, 1, 5)) 2).2) ∧
    (render_process_all_users
        (fun uid => if uid = 0 then Except.error "boom" else Except.ok (1, 1, 5)) 2).1 ≠
      (render_process_all_users (fun _ => Except.ok (1, 1, 5)) 2).1 :=
  ⟨rfl, by decide⟩

/-- C5 (amended): a failure computing one user is caught at the per-user
boundary, that user's row is zero-filled (keeping its user id), every other
user is still processed, and the batch completes with one row per user; the
completion banner, however, reports only the user count and is identical
whether or not failures occurred. -/
theorem C5_per_user_isolation (compute : ℕ → Except String (ℚ × ℚ × ℤ))
    (n uid : ℕ) (h : uid < n) :
    (render_process_all_users compute n).1.length = n ∧
    (render_process_all_users compute n).2 = n ∧
    (render_process_all_users compute n).1[uid]? =
      some (match compute uid with
        | Except.ok v => ⟨uid, v.1, v.2.1, v.2.2⟩
        | Except.error _ => ⟨uid, 0, 0, 0⟩) := by
  refine ⟨by simp [render_process_all_users], rfl, ?_⟩
  simp [render_process_all_users, renderRow, List.getElem?_map, List.getElem?_range, h]

theorem C5_per_user_isolation_witness :
    (1 < 2) ∧
    ((render_process_all_users
        (fun uid => if uid = 1 then Except.error "boom" else Except.ok (1, 1, 5)) 2).1[1]? =
      some ⟨1, 0, 0, 0⟩) := by
  refine ⟨by decide, ?_⟩
  have h := (C5_per_user_isolation
    (fun uid => if uid = 1 then Except.error "boom" else Except.ok (1, 1, 5)) 2 1
    (by decide)).2.2
  simpa using h

/-- C6: `process_all_users` does not iterate user ids `0..N-1`: it reads
user ids from the first column's cell values, and its first loop iteration
calls the two-parameter `calculate_dormancy` with three arguments, raising
`TypeError` before any output table is produced. -/
theorem C6_batch_runner_type_error :
    process_all_users [[1, 0, 1], [0, 1, 1]] =
      Except.error "TypeError: calculate_dormancy takes 2 positional arguments but 3 were given" ∧
    batchUserIds [[1, 0, 1], [0, 1, 1]] = [1, 0] ∧
    batchUserIds [[1, 0, 1], [0, 1, 1]] ≠ [0, 1] :=
  ⟨rfl, rfl, by decide⟩

end RfiApp
